import Mathlib

/-!
# Verification of the goresearch severity-scoring engine

Shallow embedding of `scoring.py`, `utils.py` and the `insert` operation of
`database.py`. Text is modelled as `List Char`; Python floats are modelled as
rationals (`ℚ`); the network is modelled as an oracle `Str → FetchResult`.
The configuration tables imported from `config` (not part of the scored
sources) are modelled as a parameter record `Config`.
-/

namespace GoResearch

/-- Python strings, modelled as lists of characters. -/
abbrev Str := List Char

/-- Embedding of `str.lower()`: character-wise lower-casing. -/
def lower (s : Str) : Str := s.map Char.toLower

/-- Python's substring test `needle in haystack`. -/
def substr (needle haystack : Str) : Bool := decide (needle <:+: haystack)

/-- Python's `min` on two floats (computable on `ℚ`; equal to `Min.min`). -/
def pymin (a b : ℚ) : ℚ := if a ≤ b then a else b

/-- Python's `max` on two floats (computable on `ℚ`; equal to `Max.max`). -/
def pymax (a b : ℚ) : ℚ := if a ≤ b then b else a

/-- Embedding of `str.strip()`: remove leading and trailing whitespace. -/
def stripStr (s : Str) : Str :=
  ((s.dropWhile Char.isWhitespace).reverse.dropWhile Char.isWhitespace).reverse

/-- The read-only configuration tables the scoring engine imports from
`config` (`KEYWORD_WEIGHTS`, `FALSE_POSITIVE_EXCLUSIONS`,
`FICTION_FAKE_INDICATORS`, `REAL_CONTENT_WEIGHTS`, `SEVERITY_COLOR_ANCHORS`,
`SEVERITY_MIN`, `SEVERITY_MAX`, `IMAGE_RED_PERCENT_TO_SEVERITY`).
Python dicts keep insertion order, so each table is an association list in
declaration order. -/
structure Config where
  keywordWeights : List (Str × ℚ)
  falsePositiveExclusions : List (Str × List Str)
  fictionFakeIndicators : List Str
  realContentWeights : List (Str × ℚ)
  severityColorAnchors : List (ℚ × Str)
  severityMin : ℚ
  severityMax : ℚ
  imageRedPercentToSeverity : ℚ

/-- Dict lookup `FALSE_POSITIVE_EXCLUSIONS[keyword]` (with the
`keyword in FALSE_POSITIVE_EXCLUSIONS` membership test). -/
def lookupExclusions (cfg : Config) (keyword : Str) : Option (List Str) :=
  (cfg.falsePositiveExclusions.find? (fun p => p.1 == keyword)).map Prod.snd

/-- Embedding of `scoring._is_false_positive(text, keyword)`: true iff the keyword has an
exclusion list and one of its exclusion substrings occurs in the lowered
text. -/
def is_false_positive (cfg : Config) (text keyword : Str) : Bool :=
  match lookupExclusions cfg keyword with
  | none => false
  | some excls => excls.any (fun excl => substr excl (lower text))

/-- Descending-weight relation used by `sorted(..., key=lambda x: -x[1])`. -/
def descWeight (a b : Str × ℚ) : Prop := b.2 ≤ a.2

instance : DecidableRel descWeight := fun a b => inferInstanceAs (Decidable (b.2 ≤ a.2))

instance : IsTotal (Str × ℚ) descWeight := ⟨fun a b => le_total b.2 a.2⟩

instance : IsTrans (Str × ℚ) descWeight := ⟨fun _ _ _ h h' => le_trans h' h⟩

/-- Embedding of `sorted(KEYWORD_WEIGHTS.items(), key=lambda x: -x[1])`: a stable sort in
descending weight order (Python's `sorted` is stable; insertion sort with a
non-strict relation is the same stable sort). -/
def sortedKeywords (cfg : Config) : List (Str × ℚ) :=
  List.insertionSort descWeight cfg.keywordWeights

/-- Embedding of `sorted(REAL_CONTENT_WEIGHTS.items(), key=lambda x: -x[1])`. -/
def sortedBonuses (cfg : Config) : List (Str × ℚ) :=
  List.insertionSort descWeight cfg.realContentWeights

/-- The keyword loop of `score_text`: add the weight of every matching,
non-excluded keyword; `break` as soon as the running total reaches 1.0. -/
def keywordLoop (cfg : Config) (tl : Str) : List (Str × ℚ) → ℚ → ℚ
  | [], total => total
  | (keyword, weight) :: rest, total =>
    if substr keyword tl && !(is_false_positive cfg tl keyword) then
      let t := total + weight
      if 1 ≤ t then t else keywordLoop cfg tl rest t
    else keywordLoop cfg tl rest total

/-- The fiction/fake penalty loop of `score_text`: the first matching
indicator multiplies the total by 0.25 and breaks. -/
def fictionLoop (tl : Str) : List Str → ℚ → ℚ
  | [], total => total
  | indicator :: rest, total =>
    if substr indicator tl then total * (1 / 4) else fictionLoop tl rest total

/-- The real-content bonus loop of `score_text`: the first matching phrase
(in descending-bonus order) adds its bonus, clamped at 1.0, and breaks. -/
def bonusLoop (tl : Str) : List (Str × ℚ) → ℚ → ℚ
  | [], total => total
  | (phrase, bonus) :: rest, total =>
    if substr phrase tl then pymin 1 (total + bonus) else bonusLoop tl rest total

/-- Embedding of `scoring.score_text`. The guard `not text or not text.strip()` is the
emptiness test on the string and on its stripped form. -/
def score_text (cfg : Config) (text : Str) : ℚ :=
  if text = [] ∨ stripStr text = [] then 0
  else
    let tl := lower text
    let base := keywordLoop cfg tl (sortedKeywords cfg) 0
    let total0 := pymin 1 base
    let total1 := fictionLoop tl cfg.fictionFakeIndicators total0
    let total2 := bonusLoop tl (sortedBonuses cfg) total1
    pymax 0 (pymin 1 total2)

/-- Outcome of `requests.get` + `Image.open` + `convert("RGB")` for one URL:
either some exception (unreachable host, non-success status via
`raise_for_status`, undecodable image data), or a decoded list of RGB
pixels. The network is a pure oracle `Str → FetchResult`. -/
inductive FetchResult where
  | failure : FetchResult
  | image : List (ℕ × ℕ × ℕ) → FetchResult
deriving DecidableEq

/-- The per-pixel blood classifier of `utils._blood_red_percentage`:
bright red `R > 140 ∧ G < 110 ∧ B < 110`, or dark red
`R > 70 ∧ G < 55 ∧ B < 55 ∧ R > G ∧ R > B`. -/
def isBloodPixel : ℕ × ℕ × ℕ → Bool
  | (r, g, b) =>
    (decide (r > 140) && decide (g < 110) && decide (b < 110)) ||
      (decide (r > 70) && decide (g < 55) && decide (b < 55) &&
        decide (r > g) && decide (r > b))

/-- Embedding of `utils._blood_red_percentage(url) -> (success, percentage)`: any
fetch/decode exception is caught and yields `(False, 0.0)`; otherwise the
percentage of blood-like pixels (`0.0` for a zero-pixel image). -/
def blood_red_percentage (env : Str → FetchResult) (url : Str) : Bool × ℚ :=
  match env url with
  | .failure => (false, 0)
  | .image pixels =>
    let total := pixels.length
    let count := (pixels.filter isBloodPixel).length
    (true, if total > 0 then (count : ℚ) / (total : ℚ) * 100 else 0)

/-- Embedding of `utils.image_gore_score(url)`: percentage over the floored reference
constant, capped at 1.0. (`_blood_red_percentage` already catches every
fetch/decode exception, so the surrounding `try` always takes the normal
path; the `except` branch returning 0.0 is unreachable in this model.) -/
def image_gore_score (cfg : Config) (env : Str → FetchResult) (url : Str) : ℚ :=
  let pct := (blood_red_percentage env url).2
  let cap := pymax (1 / 100) cfg.imageRedPercentToSeverity
  pymin 1 (pct / cap)

/-- Embedding of `scoring.score_image_from_url(url)`. -/
def score_image_from_url (cfg : Config) (env : Str → FetchResult) (url : Str) : ℚ :=
  pymin 1 (pymax 0 (image_gore_score cfg env url))

/-- The fields `score_article` reads from the article dict; absent keys are
`none`. -/
structure Article where
  title : Option Str
  description : Option Str
  urlToImage : Option Str

/-- Embedding of `article.get(k) or ""`: `None`/missing (and the falsy empty string) map
to the empty string. -/
def getOrEmpty (o : Option Str) : Str := o.getD []

/-- Embedding of `scoring.score_article(article, include_image)`. -/
def score_article (cfg : Config) (env : Str → FetchResult) (article : Article)
    (includeImage : Bool) : ℚ :=
  let title := getOrEmpty article.title
  let desc := getOrEmpty article.description
  let textScore := score_text cfg (title ++ [' '] ++ desc)
  if !includeImage then textScore
  else
    match article.urlToImage with
    | none => textScore
    | some url =>
      if url = [] then textScore
      else pymax textScore (score_image_from_url cfg env url)

/-- Round-half-to-even at integer precision (the rounding mode of Python's
`round`). -/
def roundHalfEven (q : ℚ) : ℤ :=
  if q - ⌊q⌋ < 1 / 2 then ⌊q⌋
  else if q - ⌊q⌋ > 1 / 2 then ⌊q⌋ + 1
  else if ⌊q⌋ % 2 = 0 then ⌊q⌋ else ⌊q⌋ + 1

/-- Python's `round(x, 2)`: round to 2 decimal places, ties to even. -/
def round2 (q : ℚ) : ℚ := (roundHalfEven (q * 100) : ℚ) / 100

/-- Embedding of `scoring.clamp_severity_display(score)`:
`max(SEVERITY_MIN, min(SEVERITY_MAX, round(score, 2)))`. -/
def clamp_severity_display (cfg : Config) (score : ℚ) : ℚ :=
  pymax cfg.severityMin (pymin cfg.severityMax (round2 score))

/-- Value of one hex digit character (`int(_, 16)` on a single digit);
other characters — on which Python would raise — are given the junk value
0, irrelevant under the well-formed-color hypotheses used below. -/
def hexDigitVal (c : Char) : ℕ :=
  if '0' ≤ c ∧ c ≤ '9' then c.toNat - 48
  else if 'a' ≤ c ∧ c ≤ 'f' then c.toNat - 87
  else if 'A' ≤ c ∧ c ≤ 'F' then c.toNat - 55
  else 0

/-- Embedding of `int(h[i:i+2], 16)`: the two hex digits at positions `i`, `i+1`. -/
def parseHex2 (s : Str) (i : ℕ) : ℕ :=
  16 * hexDigitVal (s.getD i '0') + hexDigitVal (s.getD (i + 1) '0')

/-- The `parse` helper of `_lerp_hex`: `h.lstrip("#")` then the three
channel bytes at positions (0, 2, 4). -/
def parseHexColor (h : Str) : ℕ × ℕ × ℕ :=
  let d := h.dropWhile (· == '#')
  (parseHex2 d 0, parseHex2 d 2, parseHex2 d 4)

/-- Python `int()` applied to a rational: truncation toward zero. -/
def intTrunc (q : ℚ) : ℤ := if 0 ≤ q then ⌊q⌋ else -⌊-q⌋

/-- Python's `"{:02X}".format`: upper-case hex, left-padded to width 2
(negative values, unreachable in `_lerp_hex` for `t ∈ [0,1]`, carry a
sign). -/
def format02X (i : ℤ) : Str :=
  let ds := (Nat.toDigits 16 i.natAbs).map Char.toUpper
  let ds := if ds.length < 2 then '0' :: ds else ds
  if i < 0 then '-' :: ds else ds

/-- One interpolated channel of `_lerp_hex`:
`int(a + (b - a) * t)`. -/
def lerpChannel (a b : ℕ) (t : ℚ) : ℤ := intTrunc ((a : ℚ) + ((b : ℚ) - (a : ℚ)) * t)

/-- Embedding of `scoring._lerp_hex(hex_a, hex_b, t)`. -/
def lerp_hex (hexA hexB : Str) (t : ℚ) : Str :=
  let a := parseHexColor hexA
  let b := parseHexColor hexB
  '#' :: (format02X (lerpChannel a.1 b.1 t) ++ format02X (lerpChannel a.2.1 b.2.1 t)
    ++ format02X (lerpChannel a.2.2 b.2.2 t))

/-- The bracketing loop of `score_to_color`: scan adjacent anchor pairs in
order; at the first pair with `a_val ≤ s ≤ b_val` interpolate and return. -/
def colorLoop (s : ℚ) : List (ℚ × Str) → Option Str
  | (aVal, aHex) :: (bVal, bHex) :: rest =>
    if aVal ≤ s ∧ s ≤ bVal then
      some (lerp_hex aHex bHex (if bVal ≠ aVal then (s - aVal) / (bVal - aVal) else 1))
    else colorLoop s ((bVal, bHex) :: rest)
  | _ => none

/-- Embedding of `scoring.score_to_color(score)`. An empty anchor list — excluded by the
spec precondition "at least one anchor exists" — is given the junk value
`[]` where Python would raise `IndexError`. -/
def score_to_color (cfg : Config) (score : ℚ) : Str :=
  let s := pymax 0 (pymin 1 score)
  match cfg.severityColorAnchors with
  | [] => []
  | first :: rest =>
    let last := rest.getLastD first
    if s ≤ first.1 then first.2
    else if s ≥ last.1 then last.2
    else
      match colorLoop s (first :: rest) with
      | some c => c
      | none => last.2

/-- One row of the `findings` table, as bound by `database.insert`. -/
structure FindingRow where
  title : Str
  url : Str
  sourceName : Str
  mediaType : Str
  severityScore : ℚ
  publishedAt : Str
  snippet : Str
  fetchedAt : Str

/-- Embedding of `s or d` for strings: the falsy empty string falls back to `d`. -/
def orDefault (s d : Str) : Str := if s = [] then d else s

/-- The row tuple `database.insert` binds into the `INSERT OR REPLACE`
statement: truncated text fields and the severity clamped by
`max(0.0, min(1.0, severity_score))`. -/
def insertRow (now url sourceName mediaType : Str) (severityScore : ℚ)
    (title publishedAt snippet : Str) : FindingRow :=
  { title := title.take 500
    url := url.take 2000
    sourceName := (orDefault sourceName (['u','n','k','n','o','w','n'])).take 100
    mediaType := (orDefault mediaType (['u','n','k','n','o','w','n'])).take 50
    severityScore := pymax 0 (pymin 1 severityScore)
    publishedAt := publishedAt.take 50
    snippet := snippet.take 2000
    fetchedAt := now }

/-- The findings table, abstracted as a list of rows; `INSERT OR REPLACE`
with the `UNIQUE(url)` constraint replaces any row with the same url. -/
def dbInsert (db : List FindingRow) (row : FindingRow) : List FindingRow :=
  (db.filter (fun r => r.url ≠ row.url)) ++ [row]

/-! ## General lemmas -/

theorem pymin_eq (a b : ℚ) : pymin a b = min a b := by
  simp [pymin, min_def]

theorem pymax_eq (a b : ℚ) : pymax a b = max a b := by
  simp [pymax, max_def]

/-! ## Witness fixtures: one small concrete configuration and network -/

/-- A small concrete configuration, used only to witness theorems on
concrete inputs. -/
def cfgW : Config :=
  { keywordWeights := [(['g','o','r','e'], 7 / 10), (['b','l','o','o','d'], 6 / 10),
      (['k','n','i','f','e'], 3 / 10)]
    falsePositiveExclusions := [(['k','n','i','f','e'], [['k','i','t','c','h','e','n']])]
    fictionFakeIndicators := [['m','o','v','i','e'], ['f','i','l','m']]
    realContentWeights := [(['c','c','t','v'], 2 / 10), (['r','e','a','l'], 1 / 10)]
    severityColorAnchors := [(0, ['#','2','E','7','D','3','2']),
      (1 / 2, ['#','F','9','A','8','2','5']), (1, ['#','B','7','1','C','1','C'])]
    severityMin := 1 / 10
    severityMax := 1
    imageRedPercentToSeverity := 25 }

/-- A concrete network oracle: one all-bright-red image, one image with 7
blood-like pixels out of 40 (17.5 %), everything else unreachable. -/
def envW : Str → FetchResult := fun url =>
  if url = ['i','m','g'] then
    .image [(200, 50, 50), (200, 50, 50), (200, 50, 50), (200, 50, 50)]
  else if url = ['h','a','l','f'] then
    .image (List.replicate 7 (200, 50, 50) ++ List.replicate 33 (0, 0, 0))
  else .failure

/-! ## C7 -/

/-- C7: for every string `s`, `score_text(s)` lies in `[0, 1]`, and the
empty string and any all-whitespace string (hence also the empty one)
score exactly `0.0`; the final result is the clamp of the penalty/bonus
output into `[0, 1]`. -/
theorem score_text_mem_unit_interval (cfg : Config) (s : Str) :
    0 ≤ score_text cfg s ∧ score_text cfg s ≤ 1 ∧
      (s.all Char.isWhitespace = true → score_text cfg s = 0) := by
  refine ⟨?_, ?_, ?_⟩
  · unfold score_text
    split
    · exact le_refl 0
    · rw [pymax_eq]
      exact le_max_left _ _
  · unfold score_text
    split
    · exact zero_le_one
    · rw [pymax_eq, pymin_eq]
      exact max_le zero_le_one (min_le_left _ _)
  · intro hw
    have hstrip : stripStr s = [] := by
      have hdrop : s.dropWhile Char.isWhitespace = [] := by
        rw [List.dropWhile_eq_nil_iff]
        intro x hx
        exact List.all_eq_true.mp hw x hx
      simp [stripStr, hdrop]
    unfold score_text
    rw [if_pos (Or.inr hstrip)]

/-- C7 witness: the all-whitespace string `" \t"` scores `0.0` in the
concrete configuration. -/
theorem score_text_mem_unit_interval_witness :
    score_text cfgW [' ', '\t'] = 0 :=
  (score_text_mem_unit_interval cfgW [' ', '\t']).2.2 (by decide)

/-! ## C5 -/

/-- C5: if a keyword matches the text but one of its configured exclusion
substrings is also present, the keyword loop adds no weight for it and
continues with the remaining keywords. -/
theorem excluded_keyword_contributes_nothing (cfg : Config) (tl keyword excl : Str)
    (excls : List Str) (weight : ℚ) (rest : List (Str × ℚ)) (total : ℚ)
    (hmatch : substr keyword tl = true)
    (hlook : lookupExclusions cfg keyword = some excls)
    (hmem : excl ∈ excls)
    (hpresent : substr excl (lower tl) = true) :
    keywordLoop cfg tl ((keyword, weight) :: rest) total = keywordLoop cfg tl rest total := by
  have hfp : is_false_positive cfg tl keyword = true := by
    unfold is_false_positive
    rw [hlook]
    exact List.any_eq_true.mpr ⟨excl, hmem, hpresent⟩
  simp [keywordLoop, hfp]

/-- C5 witness: in the concrete configuration, "knife" matches the text
"knife kitchen" but its exclusion "kitchen" is present, so the loop entry
for "knife" leaves the total untouched and proceeds. -/
theorem excluded_keyword_contributes_nothing_witness :
    keywordLoop cfgW (['k','n','i','f','e',' ','k','i','t','c','h','e','n'])
        ((['k','n','i','f','e'], 3 / 10) :: []) 0 =
      keywordLoop cfgW (['k','n','i','f','e',' ','k','i','t','c','h','e','n']) [] 0 :=
  excluded_keyword_contributes_nothing cfgW _ _ (['k','i','t','c','h','e','n'])
    [['k','i','t','c','h','e','n']] (3 / 10) [] 0 (by decide) (by decide)
    (by decide) (by decide)

/-! ## C3 -/

/-- C3: `score_image_from_url` is a total function of the fetch outcome
(no exception reaches the caller in the model): a fetch/decode failure
yields `0.0`, and the result always lies in `[0, 1]`. -/
theorem score_image_from_url_soft_failure_and_bounded (cfg : Config)
    (env : Str → FetchResult) (url : Str) :
    (env url = .failure → score_image_from_url cfg env url = 0) ∧
      0 ≤ score_image_from_url cfg env url ∧ score_image_from_url cfg env url ≤ 1 := by
  refine ⟨?_, ?_, ?_⟩
  · intro hf
    unfold score_image_from_url image_gore_score blood_red_percentage
    rw [hf]
    simp [pymin_eq, pymax_eq, zero_div]
  · unfold score_image_from_url
    rw [pymin_eq, pymax_eq]
    exact le_min zero_le_one (le_max_left _ _)
  · unfold score_image_from_url
    rw [pymin_eq]
    exact min_le_left _ _

/-- C3 witness: an unreachable URL scores `0.0` under the concrete
network oracle. -/
theorem score_image_from_url_soft_failure_witness :
    score_image_from_url cfgW envW ['n','o','p','e'] = 0 :=
  (score_image_from_url_soft_failure_and_bounded cfgW envW ['n','o','p','e']).1
    (by with_unfolding_all decide)

/-! ## C4 -/

/-- The image score exactly as the spec words it: percentage of blood-like
pixels (0.0 for a zero-pixel image), divided by the floored reference
constant `max(0.01, RedPercentReference)`, capped at 1.0. -/
def specImageScore (cfg : Config) (pixels : List (ℕ × ℕ × ℕ)) : ℚ :=
  let percentage : ℚ :=
    if pixels.length = 0 then 0
    else ((pixels.filter isBloodPixel).length : ℚ) / (pixels.length : ℚ) * 100
  pymin 1 (percentage / pymax (1 / 100) cfg.imageRedPercentToSeverity)

/-- C4: when the fetch decodes to a pixel list, the code's image score
equals the spec formula `min(1, percentage / max(0.01, ref))`; in
particular a non-empty all-bright-red image with reference constant 25
scores exactly 1.0. -/
theorem image_gore_score_eq_spec_formula (cfg : Config) (env : Str → FetchResult)
    (url : Str) (pixels : List (ℕ × ℕ × ℕ)) (himg : env url = .image pixels) :
    image_gore_score cfg env url = specImageScore cfg pixels ∧
      (cfg.imageRedPercentToSeverity = 25 → pixels ≠ [] →
        (∀ p ∈ pixels, 140 < p.1 ∧ p.2.1 < 110 ∧ p.2.2 < 110) →
        image_gore_score cfg env url = 1) := by
  have hpct : image_gore_score cfg env url = specImageScore cfg pixels := by
    unfold image_gore_score blood_red_percentage specImageScore
    rw [himg]
    rcases Nat.eq_zero_or_pos pixels.length with hz | hp
    · simp [hz]
    · simp [Nat.pos_iff_ne_zero.mp hp, hp]
  refine ⟨hpct, fun href hne hall => ?_⟩
  rw [hpct]
  have hfilter : pixels.filter isBloodPixel = pixels := by
    apply List.filter_eq_self.mpr
    intro p hp
    obtain ⟨h1, h2, h3⟩ := hall p hp
    rcases p with ⟨r, g, b⟩
    simp only [isBloodPixel, Bool.or_eq_true, Bool.and_eq_true, decide_eq_true_eq]
    exact Or.inl ⟨⟨h1, h2⟩, h3⟩
  have hlen : (pixels.length : ℚ) ≠ 0 := by
    exact_mod_cast fun h => hne (List.length_eq_zero.mp (by exact_mod_cast h))
  have hlz : ¬ pixels.length = 0 := fun h => hne (List.length_eq_zero.mp h)
  unfold specImageScore
  rw [if_neg hlz, hfilter, div_self hlen, one_mul, href]
  rw [pymax_eq, max_eq_right (by norm_num : (1 : ℚ) / 100 ≤ 25)]
  rw [pymin_eq]
  norm_num

/-- C4 witness: the concrete all-bright-red 4-pixel image scores exactly
1.0 with the reference constant 25. -/
theorem image_gore_score_eq_spec_formula_witness :
    image_gore_score cfgW envW ['i','m','g'] = 1 :=
  (image_gore_score_eq_spec_formula cfgW envW ['i','m','g']
      [(200, 50, 50), (200, 50, 50), (200, 50, 50), (200, 50, 50)]
      (by with_unfolding_all decide)).2 rfl (by decide) (by decide)

/-! ## C2 -/

/-- C2: `score_article` scores the single-space join of title and
description (missing fields are the empty string); it returns the text
score unchanged when `include_image` is false or the image URL is
absent/empty, and otherwise the maximum of text and image scores — for
text score 0.3 and image score 0.7 the result is 0.7. -/
theorem score_article_is_max_of_text_and_image (cfg : Config)
    (env : Str → FetchResult) (article : Article) :
    (score_article cfg env article false =
        score_text cfg (getOrEmpty article.title ++ [' '] ++ getOrEmpty article.description)) ∧
      (∀ b, article.urlToImage = none →
        score_article cfg env article b =
          score_text cfg (getOrEmpty article.title ++ [' '] ++ getOrEmpty article.description)) ∧
      (∀ b, article.urlToImage = some [] →
        score_article cfg env article b =
          score_text cfg (getOrEmpty article.title ++ [' '] ++ getOrEmpty article.description)) ∧
      (∀ url, article.urlToImage = some url → url ≠ [] →
        score_article cfg env article true =
          pymax (score_text cfg (getOrEmpty article.title ++ [' '] ++ getOrEmpty article.description))
            (score_image_from_url cfg env url) ∧
        (score_text cfg (getOrEmpty article.title ++ [' '] ++ getOrEmpty article.description) = 3 / 10 →
          score_image_from_url cfg env url = 7 / 10 →
          score_article cfg env article true = 7 / 10)) := by
  refine ⟨?_, ?_, ?_, ?_⟩
  · simp [score_article]
  · intro b hnone
    cases b <;> simp [score_article, hnone]
  · intro b hempty
    cases b <;> simp [score_article, hempty]
  · intro url hsome hne
    have hmax : score_article cfg env article true =
        pymax (score_text cfg (getOrEmpty article.title ++ [' '] ++ getOrEmpty article.description))
          (score_image_from_url cfg env url) := by
      simp [score_article, hsome, hne]
    refine ⟨hmax, fun ht hi => ?_⟩
    rw [hmax, ht, hi, pymax_eq]
    norm_num

/-- The concrete article used to witness C2: title "knife", no
description, image URL "half". -/
def artW : Article :=
  { title := some ['k','n','i','f','e']
    description := none
    urlToImage := some ['h','a','l','f'] }

/-- C2 witness: in the concrete configuration the text score is 0.3, the
image score is 0.7, and the article score is 0.7. -/
theorem score_article_is_max_of_text_and_image_witness :
    score_article cfgW envW artW true = 7 / 10 :=
  ((score_article_is_max_of_text_and_image cfgW envW artW).2.2.2 ['h','a','l','f']
      rfl (by decide)).2 (by with_unfolding_all decide) (by with_unfolding_all decide)

/-! ## C9 -/

/-- C9: `clamp_severity_display` rounds to 2 decimal places and clamps
into `[SEVERITY_MIN, SEVERITY_MAX]`; with the spec's display bounds
(`0.1`, `1.0`, hence min > 0 and max ≥ min) a true-zero score displays as
`SEVERITY_MIN`, a score of 1.0 displays as `SEVERITY_MAX`, and every
output lies in `[SEVERITY_MIN, SEVERITY_MAX]`. -/
theorem clamp_severity_display_bounds (cfg : Config)
    (hmin : cfg.severityMin = 1 / 10) (hmax : cfg.severityMax = 1) :
    (∀ x, clamp_severity_display cfg x =
        pymax cfg.severityMin (pymin cfg.severityMax (round2 x))) ∧
      0 < cfg.severityMin ∧ cfg.severityMin ≤ cfg.severityMax ∧
      clamp_severity_display cfg 0 = cfg.severityMin ∧
      clamp_severity_display cfg 1 = cfg.severityMax ∧
      (∀ x, cfg.severityMin ≤ clamp_severity_display cfg x ∧
        clamp_severity_display cfg x ≤ cfg.severityMax) := by
  have h0 : round2 (0 : ℚ) = 0 := by
    norm_num [round2, roundHalfEven]
  have h1 : round2 (1 : ℚ) = 1 := by
    norm_num [round2, roundHalfEven]
  refine ⟨fun x => rfl, by rw [hmin]; norm_num, by rw [hmin, hmax]; norm_num, ?_, ?_, ?_⟩
  · rw [clamp_severity_display, h0, hmin, hmax, pymin_eq, pymax_eq]
    norm_num
  · rw [clamp_severity_display, h1, hmin, hmax, pymin_eq, pymax_eq]
    norm_num
  · intro x
    rw [clamp_severity_display, pymin_eq, pymax_eq]
    constructor
    · exact le_max_left _ _
    · rw [hmin, hmax]
      exact max_le (by norm_num) (min_le_left _ _)

/-- C9 witness: with the concrete configuration (bounds 0.1 and 1.0) a
true-zero score displays as the minimum. -/
theorem clamp_severity_display_bounds_witness :
    clamp_severity_display cfgW 0 = cfgW.severityMin :=
  (clamp_severity_display_bounds cfgW rfl rfl).2.2.2.1

/-! ## C10 -/

/-- C10: `database.insert` binds `max(0.0, min(1.0, severity_score))`, so
the stored severity of the inserted row is the clamp of the caller's
value, and the invariant "every stored severity lies in [0, 1]" is
preserved by every insert. -/
theorem insert_clamps_severity (db : List FindingRow)
    (now url sourceName mediaType : Str) (severityScore : ℚ)
    (title publishedAt snippet : Str)
    (hdb : ∀ r ∈ db, 0 ≤ r.severityScore ∧ r.severityScore ≤ 1) :
    (insertRow now url sourceName mediaType severityScore title publishedAt
        snippet).severityScore = pymax 0 (pymin 1 severityScore) ∧
      ∀ r ∈ dbInsert db (insertRow now url sourceName mediaType severityScore
        title publishedAt snippet), 0 ≤ r.severityScore ∧ r.severityScore ≤ 1 := by
  refine ⟨rfl, fun r hr => ?_⟩
  rcases List.mem_append.mp hr with hl | hsing
  · exact hdb r (List.mem_filter.mp hl).1
  · have hr' : r = insertRow now url sourceName mediaType severityScore title
        publishedAt snippet := List.mem_singleton.mp hsing
    subst hr'
    constructor
    · show (0 : ℚ) ≤ pymax 0 (pymin 1 severityScore)
      rw [pymax_eq]
      exact le_max_left _ _
    · show pymax 0 (pymin 1 severityScore) ≤ 1
      rw [pymax_eq, pymin_eq]
      exact max_le zero_le_one (min_le_left _ _)

/-- C10 witness: inserting an out-of-range severity 1.5 into an empty
table stores its clamp. -/
theorem insert_clamps_severity_witness :
    (insertRow ['t'] ['u'] [] [] (3 / 2) [] [] []).severityScore =
      pymax 0 (pymin 1 (3 / 2)) :=
  (insert_clamps_severity [] ['t'] ['u'] [] [] (3 / 2) [] [] [] (by simp)).1

/-! ## C6 -/

theorem fictionLoop_of_exists (tl : Str) (l : List Str) (total : ℚ)
    (h : ∃ ind ∈ l, substr ind tl = true) :
    fictionLoop tl l total = total * (1 / 4) := by
  induction l with
  | nil => simp at h
  | cons i r ih =>
    by_cases hi : substr i tl = true
    · simp [fictionLoop, hi]
    · rcases h with ⟨ind, hmem, hsub⟩
      rcases List.mem_cons.mp hmem with rfl | hmem'
      · exact absurd hsub hi
      · simp only [fictionLoop, Bool.not_eq_true] at hi ⊢
        rw [hi]
        exact ih ⟨ind, hmem', hsub⟩

theorem fictionLoop_of_forall (tl : Str) (l : List Str) (total : ℚ)
    (h : ∀ ind ∈ l, substr ind tl = false) :
    fictionLoop tl l total = total := by
  induction l with
  | nil => rfl
  | cons i r ih =>
    have hi := h i (List.mem_cons_self i r)
    show (if substr i tl = true then total * (1 / 4) else fictionLoop tl r total) = total
    rw [if_neg (by simp [hi])]
    exact ih fun ind hm => h ind (List.mem_cons_of_mem i hm)

theorem bonusLoop_find_some (tl : Str) (l : List (Str × ℚ)) (total : ℚ)
    (phrase : Str) (bonus : ℚ)
    (h : l.find? (fun p => substr p.1 tl) = some (phrase, bonus)) :
    bonusLoop tl l total = pymin 1 (total + bonus) := by
  induction l with
  | nil => simp at h
  | cons p r ih =>
    rcases p with ⟨ph, b⟩
    by_cases hp : substr ph tl = true
    · rw [@List.find?_cons_of_pos _ (fun q : Str × ℚ => substr q.1 tl) (ph, b) r hp] at h
      obtain ⟨rfl, rfl⟩ : ph = phrase ∧ b = bonus := by
        have := Option.some.inj h
        exact ⟨congrArg Prod.fst this, congrArg Prod.snd this⟩
      show (if substr ph tl = true then pymin 1 (total + b) else bonusLoop tl r total) =
        pymin 1 (total + b)
      rw [if_pos hp]
    · rw [@List.find?_cons_of_neg _ (fun q : Str × ℚ => substr q.1 tl) (ph, b) r hp] at h
      show (if substr ph tl = true then pymin 1 (total + b) else bonusLoop tl r total) =
        pymin 1 (total + bonus)
      rw [if_neg hp]
      exact ih h

theorem bonusLoop_find_none (tl : Str) (l : List (Str × ℚ)) (total : ℚ)
    (h : l.find? (fun p => substr p.1 tl) = none) :
    bonusLoop tl l total = total := by
  induction l with
  | nil => rfl
  | cons p r ih =>
    rcases p with ⟨ph, b⟩
    by_cases hp : substr ph tl = true
    · rw [@List.find?_cons_of_pos _ (fun q : Str × ℚ => substr q.1 tl) (ph, b) r hp] at h
      exact absurd h (by simp)
    · rw [@List.find?_cons_of_neg _ (fun q : Str × ℚ => substr q.1 tl) (ph, b) r hp] at h
      show (if substr ph tl = true then pymin 1 (total + b) else bonusLoop tl r total) = total
      rw [if_neg hp]
      exact ih h

theorem bonusLoop_le_one (tl : Str) (l : List (Str × ℚ)) (total : ℚ)
    (h : total ≤ 1) : bonusLoop tl l total ≤ 1 := by
  induction l with
  | nil => exact h
  | cons p r ih =>
    rcases p with ⟨ph, b⟩
    show (if substr ph tl = true then pymin 1 (total + b) else bonusLoop tl r total) ≤ 1
    by_cases hp : substr ph tl = true
    · rw [if_pos hp, pymin_eq]
      exact min_le_left _ _
    · rw [if_neg hp]
      exact ih

/-- C6: the fiction/fake penalty applies at most once — any matching
indicator yields exactly one multiplication of the total by 0.25, and no
match leaves the total unchanged; the real-content bonus scan runs over
the descending-bonus ordering, only the first matching phrase adds its
bonus (clamped at 1.0), no match leaves the total unchanged, and a total
at most 1 stays at most 1. -/
theorem penalty_and_bonus_apply_at_most_once (cfg : Config) (tl : Str) (total : ℚ) :
    ((∃ ind ∈ cfg.fictionFakeIndicators, substr ind tl = true) →
        fictionLoop tl cfg.fictionFakeIndicators total = total * (1 / 4)) ∧
      ((∀ ind ∈ cfg.fictionFakeIndicators, substr ind tl = false) →
        fictionLoop tl cfg.fictionFakeIndicators total = total) ∧
      List.Sorted descWeight (sortedBonuses cfg) ∧
      (∀ phrase bonus,
        (sortedBonuses cfg).find? (fun p => substr p.1 tl) = some (phrase, bonus) →
        bonusLoop tl (sortedBonuses cfg) total = pymin 1 (total + bonus)) ∧
      ((sortedBonuses cfg).find? (fun p => substr p.1 tl) = none →
        bonusLoop tl (sortedBonuses cfg) total = total) ∧
      (total ≤ 1 → bonusLoop tl (sortedBonuses cfg) total ≤ 1) :=
  ⟨fictionLoop_of_exists tl _ total,
    fictionLoop_of_forall tl _ total,
    List.sorted_insertionSort descWeight _,
    fun phrase bonus h => bonusLoop_find_some tl _ total phrase bonus h,
    bonusLoop_find_none tl _ total,
    bonusLoop_le_one tl _ total⟩

/-- C6 witness: a text containing both fiction indicators "movie" and
"film" is penalised exactly once: the total 1/2 becomes 1/2 × 0.25. -/
theorem penalty_and_bonus_apply_at_most_once_witness :
    fictionLoop (['m','o','v','i','e',' ','f','i','l','m'])
        cfgW.fictionFakeIndicators (1 / 2) = (1 / 2) * (1 / 4) :=
  (penalty_and_bonus_apply_at_most_once cfgW
      (['m','o','v','i','e',' ','f','i','l','m']) (1 / 2)).1 (by decide)

/-! ## C1 -/

theorem keywordLoop_ge_acc (cfg : Config) (tl : Str) (l : List (Str × ℚ)) (acc : ℚ)
    (hw : ∀ e ∈ l, 0 ≤ e.2) : acc ≤ keywordLoop cfg tl l acc := by
  induction l generalizing acc with
  | nil => exact le_refl acc
  | cons e r ih =>
    rcases e with ⟨k, w⟩
    have hw0 : (0 : ℚ) ≤ w := hw (k, w) (List.mem_cons_self _ _)
    have hwr : ∀ e ∈ r, (0 : ℚ) ≤ e.2 := fun e he => hw e (List.mem_cons_of_mem _ he)
    show acc ≤ (if (substr k tl && !(is_false_positive cfg tl k)) = true then
        (if 1 ≤ acc + w then acc + w else keywordLoop cfg tl r (acc + w))
      else keywordLoop cfg tl r acc)
    by_cases hc : (substr k tl && !(is_false_positive cfg tl k)) = true
    · rw [if_pos hc]
      by_cases h1 : 1 ≤ acc + w
      · rw [if_pos h1]
        linarith
      · rw [if_neg h1]
        calc acc ≤ acc + w := by linarith
          _ ≤ keywordLoop cfg tl r (acc + w) := ih (acc + w) hwr
    · rw [if_neg hc]
      exact ih acc hwr

theorem keywordLoop_reaches_single (cfg : Config) (tl : Str) (l : List (Str × ℚ))
    (acc : ℚ) (k : Str) (w : ℚ)
    (hw : ∀ e ∈ l, 0 ≤ e.2) (hmem : (k, w) ∈ l)
    (hsub : substr k tl = true) (hfp : is_false_positive cfg tl k = false) :
    min 1 (acc + w) ≤ keywordLoop cfg tl l acc := by
  induction l generalizing acc with
  | nil => simp at hmem
  | cons e r ih =>
    rcases e with ⟨k', w'⟩
    have hw0 : (0 : ℚ) ≤ w' := hw (k', w') (List.mem_cons_self _ _)
    have hwr : ∀ e ∈ r, (0 : ℚ) ≤ e.2 := fun e he => hw e (List.mem_cons_of_mem _ he)
    show min 1 (acc + w) ≤ (if (substr k' tl && !(is_false_positive cfg tl k')) = true then
        (if 1 ≤ acc + w' then acc + w' else keywordLoop cfg tl r (acc + w'))
      else keywordLoop cfg tl r acc)
    rcases List.mem_cons.mp hmem with heq | hmem'
    · obtain ⟨rfl, rfl⟩ : k = k' ∧ w = w' :=
        ⟨congrArg Prod.fst heq, congrArg Prod.snd heq⟩
      rw [if_pos (by rw [hsub, hfp]; rfl)]
      by_cases h1 : 1 ≤ acc + w
      · rw [if_pos h1]
        exact min_le_right _ _
      · rw [if_neg h1]
        exact le_trans (min_le_right _ _) (keywordLoop_ge_acc cfg tl r (acc + w) hwr)
    · by_cases hc : (substr k' tl && !(is_false_positive cfg tl k')) = true
      · rw [if_pos hc]
        by_cases h1 : 1 ≤ acc + w'
        · rw [if_pos h1]
          exact le_trans (min_le_left _ _) h1
        · rw [if_neg h1]
          calc min 1 (acc + w) ≤ min 1 (acc + w' + w) := by
                apply min_le_min (le_refl 1)
                linarith
            _ ≤ keywordLoop cfg tl r (acc + w') := ih (acc + w') hwr hmem'
      · rw [if_neg hc]
        exact ih acc hwr hmem'

theorem keywordLoop_reaches_pair (cfg : Config) (tl : Str)
    (l₁ l₂ : List (Str × ℚ)) (acc : ℚ) (kA kB : Str) (wA wB : ℚ)
    (hw : ∀ e ∈ l₁ ++ (kA, wA) :: l₂, 0 ≤ e.2)
    (hmemB : (kB, wB) ∈ l₂)
    (hsubA : substr kA tl = true) (hfpA : is_false_positive cfg tl kA = false)
    (hsubB : substr kB tl = true) (hfpB : is_false_positive cfg tl kB = false) :
    min 1 (acc + wA + wB) ≤ keywordLoop cfg tl (l₁ ++ (kA, wA) :: l₂) acc := by
  induction l₁ generalizing acc with
  | nil =>
    have hwl₂ : ∀ e ∈ l₂, (0 : ℚ) ≤ e.2 := fun e he =>
      hw e (by simp [List.mem_cons_of_mem, he])
    show min 1 (acc + wA + wB) ≤
      (if (substr kA tl && !(is_false_positive cfg tl kA)) = true then
        (if 1 ≤ acc + wA then acc + wA else keywordLoop cfg tl l₂ (acc + wA))
      else keywordLoop cfg tl l₂ acc)
    rw [if_pos (by rw [hsubA, hfpA]; rfl)]
    by_cases h1 : 1 ≤ acc + wA
    · rw [if_pos h1]
      exact le_trans (min_le_left _ _) h1
    · rw [if_neg h1]
      calc min 1 (acc + wA + wB) = min 1 ((acc + wA) + wB) := by ring_nf
        _ ≤ keywordLoop cfg tl l₂ (acc + wA) :=
          keywordLoop_reaches_single cfg tl l₂ (acc + wA) kB wB hwl₂ hmemB hsubB hfpB
  | cons e r ih =>
    rcases e with ⟨k', w'⟩
    have hw0 : (0 : ℚ) ≤ w' := hw (k', w') (List.mem_cons_self _ _)
    have hwr : ∀ e ∈ r ++ (kA, wA) :: l₂, (0 : ℚ) ≤ e.2 := fun e he =>
      hw e (List.mem_cons_of_mem _ he)
    show min 1 (acc + wA + wB) ≤
      (if (substr k' tl && !(is_false_positive cfg tl k')) = true then
        (if 1 ≤ acc + w' then acc + w'
          else keywordLoop cfg tl (r ++ (kA, wA) :: l₂) (acc + w'))
      else keywordLoop cfg tl (r ++ (kA, wA) :: l₂) acc)
    by_cases hc : (substr k' tl && !(is_false_positive cfg tl k')) = true
    · rw [if_pos hc]
      by_cases h1 : 1 ≤ acc + w'
      · rw [if_pos h1]
        exact le_trans (min_le_left _ _) h1
      · rw [if_neg h1]
        calc min 1 (acc + wA + wB) ≤ min 1 (acc + w' + wA + wB) := by
              apply min_le_min (le_refl 1)
              linarith
          _ ≤ keywordLoop cfg tl (r ++ (kA, wA) :: l₂) (acc + w') := ih (acc + w') hwr
    · rw [if_neg hc]
      exact ih acc hwr

/-- C1: the keyword scan of `score_text` iterates a stable descending-weight
ordering of `KEYWORD_WEIGHTS` (ties keep declaration order), stops as soon
as the running total reaches 1.0, and the capped base total is exactly 1.0
whenever two unexcluded keywords of weights 0.6 and 0.7 both match the text
(all configured weights being nonnegative, as the spec's KeywordWeight
invariant requires). -/
theorem keyword_scan_sorted_shortcircuit_capped (cfg : Config) :
    List.Sorted descWeight (sortedKeywords cfg) ∧
      (∀ w : ℚ, (sortedKeywords cfg).filter (fun e => decide (e.2 = w)) =
        cfg.keywordWeights.filter (fun e => decide (e.2 = w))) ∧
      (∀ tl keyword weight rest acc, substr keyword tl = true →
        is_false_positive cfg tl keyword = false → 1 ≤ acc + weight →
        keywordLoop cfg tl ((keyword, weight) :: rest) acc = acc + weight) ∧
      (∀ tl k₁ k₂, (∀ e ∈ cfg.keywordWeights, 0 ≤ e.2) →
        (k₁, 6 / 10) ∈ cfg.keywordWeights → (k₂, 7 / 10) ∈ cfg.keywordWeights →
        substr k₁ tl = true → is_false_positive cfg tl k₁ = false →
        substr k₂ tl = true → is_false_positive cfg tl k₂ = false →
        pymin 1 (keywordLoop cfg tl (sortedKeywords cfg) 0) = 1) := by
  refine ⟨List.sorted_insertionSort descWeight _, ?_, ?_, ?_⟩
  · intro w
    set p : Str × ℚ → Bool := fun e => decide (e.2 = w) with hp
    have hall : ∀ e ∈ cfg.keywordWeights.filter p, p e = true := fun e he =>
      (List.mem_filter.mp he).2
    have hpair : (cfg.keywordWeights.filter p).Pairwise descWeight := by
      apply List.pairwise_of_forall_mem_list
      intro a ha b hb
      have ha' : a.2 = w := of_decide_eq_true (hall a ha)
      have hb' : b.2 = w := of_decide_eq_true (hall b hb)
      show b.2 ≤ a.2
      rw [ha', hb']
    have hsub : List.Sublist (cfg.keywordWeights.filter p) (sortedKeywords cfg) :=
      List.sublist_insertionSort hpair (List.filter_sublist _)
    have hsub2 : List.Sublist (cfg.keywordWeights.filter p) ((sortedKeywords cfg).filter p) := by
      have := hsub.filter p
      rwa [List.filter_filter, show ((fun e => p e && p e) : Str × ℚ → Bool) = p by
        funext e; cases p e <;> rfl] at this
    have hlen : (cfg.keywordWeights.filter p).length =
        ((sortedKeywords cfg).filter p).length :=
      ((List.perm_insertionSort descWeight cfg.keywordWeights).filter p).length_eq.symm
    exact (hsub2.eq_of_length hlen).symm
  · intro tl keyword weight rest acc hsub hfp h1
    show (if (substr keyword tl && !(is_false_positive cfg tl keyword)) = true then
        (if 1 ≤ acc + weight then acc + weight else keywordLoop cfg tl rest (acc + weight))
      else keywordLoop cfg tl rest acc) = acc + weight
    rw [if_pos (by rw [hsub, hfp]; rfl), if_pos h1]
  · intro tl k₁ k₂ hw hm1 hm2 hs1 hf1 hs2 hf2
    have hwsorted : ∀ e ∈ sortedKeywords cfg, (0 : ℚ) ≤ e.2 := fun e he =>
      hw e ((List.mem_insertionSort descWeight).mp he)
    have hm1' : (k₁, (6 : ℚ) / 10) ∈ sortedKeywords cfg :=
      (List.mem_insertionSort descWeight).mpr hm1
    have hm2' : (k₂, (7 : ℚ) / 10) ∈ sortedKeywords cfg :=
      (List.mem_insertionSort descWeight).mpr hm2
    have hne : ((k₁, (6 : ℚ) / 10) : Str × ℚ) ≠ (k₂, (7 : ℚ) / 10) := by
      intro h
      have : (6 : ℚ) / 10 = 7 / 10 := congrArg Prod.snd h
      norm_num at this
    obtain ⟨s, t, hst⟩ := List.append_of_mem hm1'
    have hbound : (1 : ℚ) ≤ keywordLoop cfg tl (sortedKeywords cfg) 0 := by
      rw [hst] at hm2' hwsorted ⊢
      rcases List.mem_append.mp hm2' with hs' | ht'
      · -- (k₂, 7/10) occurs before (k₁, 6/10)
        obtain ⟨s₁, s₂, hs12⟩ := List.append_of_mem hs'
        have hre : s ++ (k₁, (6 : ℚ) / 10) :: t =
            s₁ ++ (k₂, (7 : ℚ) / 10) :: (s₂ ++ (k₁, (6 : ℚ) / 10) :: t) := by
          rw [hs12]
          simp
        rw [hre] at hwsorted ⊢
        have := keywordLoop_reaches_pair cfg tl s₁ (s₂ ++ (k₁, (6 : ℚ) / 10) :: t) 0
          k₂ k₁ (7 / 10) (6 / 10) hwsorted (by simp) hs2 hf2 hs1 hf1
        calc (1 : ℚ) = min 1 (0 + 7 / 10 + 6 / 10) := by norm_num
          _ ≤ _ := this
      · rcases List.mem_cons.mp ht' with heq | ht''
        · exact absurd heq.symm hne
        · have := keywordLoop_reaches_pair cfg tl s t 0 k₁ k₂ (6 / 10) (7 / 10)
            hwsorted ht'' hs1 hf1 hs2 hf2
          calc (1 : ℚ) = min 1 (0 + 6 / 10 + 7 / 10) := by norm_num
            _ ≤ _ := this
    rw [pymin_eq]
    exact min_eq_left hbound

/-- C1 witness: in the concrete configuration the keywords "blood" (0.6)
and "gore" (0.7) both match "gore blood", and the capped base total is
exactly 1.0. -/
theorem keyword_scan_capped_witness :
    pymin 1 (keywordLoop cfgW (['g','o','r','e',' ','b','l','o','o','d'])
      (sortedKeywords cfgW) 0) = 1 :=
  (keyword_scan_sorted_shortcircuit_capped cfgW).2.2.2
    (['g','o','r','e',' ','b','l','o','o','d']) (['b','l','o','o','d']) (['g','o','r','e'])
    (by with_unfolding_all decide) (by with_unfolding_all decide)
    (by with_unfolding_all decide) (by decide) (by decide) (by decide) (by decide)

/-! ## C8 -/

/-- The sixteen upper-case hex digit characters. -/
def upperHexDigits : List Char :=
  ['0','1','2','3','4','5','6','7','8','9','A','B','C','D','E','F']

/-- A color string in the canonical `#RRGGBB` form the spec requires of
anchor colors: a `#` followed by exactly six upper-case hex digits. -/
def canonicalHex (h : Str) : Bool :=
  (h.length == 7) && (h.getD 0 ' ' == '#') &&
    (h.drop 1).all (fun c => decide (c ∈ upperHexDigits))

theorem canonicalHex_shape (h : Str) (hc : canonicalHex h = true) :
    ∃ c₁ c₂ c₃ c₄ c₅ c₆, h = ['#', c₁, c₂, c₃, c₄, c₅, c₆] ∧
      c₁ ∈ upperHexDigits ∧ c₂ ∈ upperHexDigits ∧ c₃ ∈ upperHexDigits ∧
      c₄ ∈ upperHexDigits ∧ c₅ ∈ upperHexDigits ∧ c₆ ∈ upperHexDigits := by
  rcases h with _ | ⟨a₀, _ | ⟨a₁, _ | ⟨a₂, _ | ⟨a₃, _ | ⟨a₄, _ | ⟨a₅, _ | ⟨a₆, rest⟩⟩⟩⟩⟩⟩⟩ <;>
    simp only [canonicalHex, List.length_cons, List.length_nil, List.getD, List.drop,
      List.all_cons, List.all_nil, Bool.and_eq_true, beq_iff_eq, decide_eq_true_eq,
      List.getD_cons_zero] at hc
  · exact absurd hc.1.1 (by decide)
  · exact absurd hc.1.1 (by decide)
  · exact absurd hc.1.1 (by decide)
  · exact absurd hc.1.1 (by decide)
  · exact absurd hc.1.1 (by decide)
  · exact absurd hc.1.1 (by decide)
  · exact absurd hc.1.1 (by decide)
  · rcases hc with ⟨⟨hlen, hhash⟩, h₁, h₂, h₃, h₄, h₅, h₆, _⟩
    have hrest : rest = [] := by
      have : rest.length = 0 := by omega
      exact List.length_eq_zero.mp this
    subst hrest hhash
    exact ⟨a₁, a₂, a₃, a₄, a₅, a₆, rfl, h₁, h₂, h₃, h₄, h₅, h₆⟩

theorem hexDigitVal_le_15 (c : Char) (h : c ∈ upperHexDigits) : hexDigitVal c ≤ 15 := by
  fin_cases h <;> decide

theorem upperHexDigit_ne_hash (c : Char) (h : c ∈ upperHexDigits) : (c == '#') = false := by
  fin_cases h <;> decide

theorem format02X_two_digits (c₁ c₂ : Char) (h₁ : c₁ ∈ upperHexDigits)
    (h₂ : c₂ ∈ upperHexDigits) :
    format02X ((16 * hexDigitVal c₁ + hexDigitVal c₂ : ℕ) : ℤ) = [c₁, c₂] := by
  fin_cases h₁ <;> fin_cases h₂ <;> decide

/-- Parsing a canonical `#RRGGBB` string and re-formatting the three byte
values gives back the same string. -/
theorem format_parse_roundtrip (h : Str) (hc : canonicalHex h = true) :
    '#' :: (format02X ((parseHexColor h).1 : ℤ) ++ format02X ((parseHexColor h).2.1 : ℤ)
      ++ format02X ((parseHexColor h).2.2 : ℤ)) = h := by
  obtain ⟨c₁, c₂, c₃, c₄, c₅, c₆, rfl, m₁, m₂, m₃, m₄, m₅, m₆⟩ := canonicalHex_shape h hc
  have hdrop : (['#', c₁, c₂, c₃, c₄, c₅, c₆] : Str).dropWhile (· == '#') =
      [c₁, c₂, c₃, c₄, c₅, c₆] := by
    show List.dropWhile (· == '#') ('#' :: [c₁, c₂, c₃, c₄, c₅, c₆]) = _
    rw [List.dropWhile_cons_of_pos (by decide), List.dropWhile_cons_of_neg
      (by rw [upperHexDigit_ne_hash c₁ m₁]; exact Bool.false_ne_true)]
  have hparse : parseHexColor ['#', c₁, c₂, c₃, c₄, c₅, c₆] =
      (16 * hexDigitVal c₁ + hexDigitVal c₂, 16 * hexDigitVal c₃ + hexDigitVal c₄,
        16 * hexDigitVal c₅ + hexDigitVal c₆) := by
    unfold parseHexColor
    rw [hdrop]
    rfl
  rw [hparse]
  rw [format02X_two_digits c₁ c₂ m₁ m₂, format02X_two_digits c₃ c₄ m₃ m₄,
    format02X_two_digits c₅ c₆ m₅ m₆]
  rfl

theorem parseHexColor_le_255 (h : Str) (hc : canonicalHex h = true) :
    (parseHexColor h).1 ≤ 255 ∧ (parseHexColor h).2.1 ≤ 255 ∧ (parseHexColor h).2.2 ≤ 255 := by
  obtain ⟨c₁, c₂, c₃, c₄, c₅, c₆, rfl, m₁, m₂, m₃, m₄, m₅, m₆⟩ := canonicalHex_shape h hc
  have hdrop : (['#', c₁, c₂, c₃, c₄, c₅, c₆] : Str).dropWhile (· == '#') =
      [c₁, c₂, c₃, c₄, c₅, c₆] := by
    show List.dropWhile (· == '#') ('#' :: [c₁, c₂, c₃, c₄, c₅, c₆]) = _
    rw [List.dropWhile_cons_of_pos (by decide), List.dropWhile_cons_of_neg
      (by rw [upperHexDigit_ne_hash c₁ m₁]; exact Bool.false_ne_true)]
  have hparse : parseHexColor ['#', c₁, c₂, c₃, c₄, c₅, c₆] =
      (16 * hexDigitVal c₁ + hexDigitVal c₂, 16 * hexDigitVal c₃ + hexDigitVal c₄,
        16 * hexDigitVal c₅ + hexDigitVal c₆) := by
    unfold parseHexColor
    rw [hdrop]
    rfl
  rw [hparse]
  refine ⟨?_, ?_, ?_⟩ <;>
    [have := hexDigitVal_le_15 c₁ m₁; have := hexDigitVal_le_15 c₃ m₃;
      have := hexDigitVal_le_15 c₅ m₅] <;>
    [have := hexDigitVal_le_15 c₂ m₂; have := hexDigitVal_le_15 c₄ m₄;
      have := hexDigitVal_le_15 c₆ m₆] <;> simp <;> omega

/-- A channel linearly interpolated with `t ∈ [0,1]` between byte values
stays a byte value after truncation. -/
theorem lerpChannel_mem_byte_range (a b : ℕ) (t : ℚ) (ha : a ≤ 255) (hb : b ≤ 255)
    (ht0 : 0 ≤ t) (ht1 : t ≤ 1) :
    0 ≤ lerpChannel a b t ∧ lerpChannel a b t ≤ 255 := by
  have hq0 : (0 : ℚ) ≤ (a : ℚ) + ((b : ℚ) - (a : ℚ)) * t := by
    rcases le_total (a : ℚ) (b : ℚ) with hab | hba
    · nlinarith [Nat.cast_nonneg (α := ℚ) a]
    · nlinarith [Nat.cast_nonneg (α := ℚ) b]
  have hq255 : (a : ℚ) + ((b : ℚ) - (a : ℚ)) * t ≤ 255 := by
    have ha' : (a : ℚ) ≤ 255 := by exact_mod_cast ha
    have hb' : (b : ℚ) ≤ 255 := by exact_mod_cast hb
    rcases le_total (a : ℚ) (b : ℚ) with hab | hba
    · nlinarith
    · nlinarith
  unfold lerpChannel intTrunc
  rw [if_pos hq0]
  constructor
  · exact Int.floor_nonneg.mpr hq0
  · calc ⌊(a : ℚ) + ((b : ℚ) - (a : ℚ)) * t⌋ ≤ ⌊(255 : ℚ)⌋ := Int.floor_le_floor hq255
      _ = 255 := by norm_num

/-- The adjacent-pair scan of `score_to_color` returns the interpolation on
the first bracketing interval: every interval left of a strictly ascending
split fails the bracket test. -/
theorem colorLoop_bracket (s : ℚ) (pre post : List (ℚ × Str)) (a b : ℚ × Str)
    (hpw : (pre ++ a :: b :: post).Pairwise (fun x y : ℚ × Str => x.1 < y.1))
    (ha : a.1 < s) (hb : s ≤ b.1) :
    colorLoop s (pre ++ a :: b :: post) =
      some (lerp_hex a.2 b.2 ((s - a.1) / (b.1 - a.1))) := by
  induction pre with
  | nil =>
    show colorLoop s (a :: b :: post) = _
    rcases a with ⟨aV, aH⟩
    rcases b with ⟨bV, bH⟩
    show (if aV ≤ s ∧ s ≤ bV then
        some (lerp_hex aH bH (if bV ≠ aV then (s - aV) / (bV - aV) else 1))
      else colorLoop s ((bV, bH) :: post)) = _
    rw [if_pos ⟨le_of_lt ha, hb⟩, if_pos (ne_of_gt (lt_of_lt_of_le ha hb))]
  | cons x pre' ih =>
    have hpw' : (pre' ++ a :: b :: post).Pairwise (fun x y : ℚ × Str => x.1 < y.1) :=
      hpw.of_cons
    have hxa : ∀ y ∈ pre' ++ a :: b :: post, x.1 < y.1 :=
      fun y hy => (List.pairwise_cons.mp hpw).1 y hy
    cases pre' with
    | nil =>
      show (if x.1 ≤ s ∧ s ≤ a.1 then _ else colorLoop s (a :: b :: post)) = _
      rw [if_neg (fun hcon => absurd hcon.2 (not_le.mpr ha))]
      exact ih hpw'
    | cons z pre'' =>
      show (if x.1 ≤ s ∧ s ≤ z.1 then _
        else colorLoop s (z :: (pre'' ++ a :: b :: post))) = _
      have hza : z.1 < a.1 := by
        have := List.pairwise_append.mp hpw'
        exact this.2.2 z (List.mem_cons_self _ _) a (List.mem_cons_self _ _)
      rw [if_neg (fun hcon => absurd hcon.2 (not_le.mpr (lt_trans hza ha)))]
      exact ih hpw'

theorem lerp_hex_one (hA hB : Str) (hc : canonicalHex hB = true) :
    lerp_hex hA hB 1 = hB := by
  have hch : ∀ x y : ℕ, lerpChannel x y 1 = (y : ℤ) := by
    intro x y
    unfold lerpChannel intTrunc
    rw [show (x : ℚ) + ((y : ℚ) - (x : ℚ)) * 1 = (y : ℚ) by ring,
      if_pos (by positivity : (0 : ℚ) ≤ (y : ℚ))]
    exact Int.floor_natCast y
  show ('#' :: (format02X (lerpChannel (parseHexColor hA).1 (parseHexColor hB).1 1) ++
      format02X (lerpChannel (parseHexColor hA).2.1 (parseHexColor hB).2.1 1) ++
      format02X (lerpChannel (parseHexColor hA).2.2 (parseHexColor hB).2.2 1))) = hB
  rw [hch, hch, hch]
  exact format_parse_roundtrip hB hc

theorem pairwise_lt_before_last (l₁ l₂ : List (ℚ × Str)) (u v : ℚ × Str)
    (h : (l₁ ++ u :: (l₂ ++ [v])).Pairwise (fun x y : ℚ × Str => x.1 < y.1)) :
    u.1 < v.1 := by
  have h2 := (List.pairwise_append.mp h).2.1
  exact (List.pairwise_cons.mp h2).1 v (by simp)

/-- Full evaluation of `score_to_color` on a score inside a bracketing
interval `(a, b]` of a strictly ascending anchor list (when `b` is not the
last anchor, the right end may be attained). -/
theorem score_to_color_eval_bracket (cfg : Config) (pre post : List (ℚ × Str))
    (a b : ℚ × Str) (score : ℚ)
    (hanch : cfg.severityColorAnchors = pre ++ a :: b :: post)
    (hpw : (pre ++ a :: b :: post).Pairwise (fun x y : ℚ × Str => x.1 < y.1))
    (hs0 : 0 ≤ score) (hs1 : score ≤ 1)
    (ha : a.1 < score) (hb : score ≤ b.1)
    (hnl : score < b.1 ∨ post ≠ []) :
    score_to_color cfg score = lerp_hex a.2 b.2 ((score - a.1) / (b.1 - a.1)) := by
  have hs : pymax 0 (pymin 1 score) = score := by
    rw [pymax_eq, pymin_eq, min_eq_right hs1, max_eq_right hs0]
  have hcl : colorLoop score (pre ++ a :: b :: post) =
      some (lerp_hex a.2 b.2 ((score - a.1) / (b.1 - a.1))) :=
    colorLoop_bracket score pre post a b hpw ha hb
  cases pre with
  | nil =>
    have hlast : ¬ score ≥ ((b :: post).getLastD a).1 := by
      rcases List.eq_nil_or_concat post with rfl | ⟨post', e, hpe⟩
      case inl =>
        rw [List.getLastD_cons, List.getLastD_nil]
        rcases hnl with hlt | hcon
        · exact not_le.mpr hlt
        · exact absurd rfl hcon
      case inr =>
        rw [List.concat_eq_append] at hpe
        subst hpe
        rw [show (b :: (post' ++ [e]) : List (ℚ × Str)) = (b :: post') ++ [e] by simp,
          List.getLastD_concat]
        have hbe : b.1 < e.1 := pairwise_lt_before_last [a] post' b e (by simpa using hpw)
        exact not_le.mpr (lt_of_le_of_lt hb hbe)
    unfold score_to_color
    rw [hanch]
    show (if pymax 0 (pymin 1 score) ≤ a.1 then a.2
      else if pymax 0 (pymin 1 score) ≥ ((b :: post).getLastD a).1 then ((b :: post).getLastD a).2
      else match colorLoop (pymax 0 (pymin 1 score)) (a :: b :: post) with
        | some c => c
        | none => ((b :: post).getLastD a).2) = _
    rw [hs, if_neg (not_le.mpr ha), if_neg hlast]
    simp only [List.nil_append] at hcl
    rw [hcl]
  | cons f pre' =>
    have hfa : f.1 < a.1 :=
      (List.pairwise_cons.mp hpw).1 a (by simp)
    have hlast : ¬ score ≥ ((pre' ++ a :: b :: post).getLastD f).1 := by
      rcases List.eq_nil_or_concat post with rfl | ⟨post', e, hpe⟩
      case inl =>
        rw [show (pre' ++ a :: b :: [] : List (ℚ × Str)) = (pre' ++ [a]) ++ [b] by simp,
          List.getLastD_concat]
        rcases hnl with hlt | hcon
        · exact not_le.mpr hlt
        · exact absurd rfl hcon
      case inr =>
        rw [List.concat_eq_append] at hpe
        subst hpe
        rw [show (pre' ++ a :: b :: (post' ++ [e]) : List (ℚ × Str)) =
            (pre' ++ a :: b :: post') ++ [e] by simp, List.getLastD_concat]
        have hbe : b.1 < e.1 :=
          pairwise_lt_before_last (f :: pre' ++ [a]) post' b e (by simpa using hpw)
        exact not_le.mpr (lt_of_le_of_lt hb hbe)
    unfold score_to_color
    rw [hanch]
    show (if pymax 0 (pymin 1 score) ≤ f.1 then f.2
      else if pymax 0 (pymin 1 score) ≥ ((pre' ++ a :: b :: post).getLastD f).1 then
        ((pre' ++ a :: b :: post).getLastD f).2
      else match colorLoop (pymax 0 (pymin 1 score)) (f :: pre' ++ a :: b :: post) with
        | some c => c
        | none => ((pre' ++ a :: b :: post).getLastD f).2) = _
    rw [hs, if_neg (not_le.mpr (lt_trans hfa ha)), if_neg hlast]
    have hcl' : colorLoop score (f :: pre' ++ a :: b :: post) =
        some (lerp_hex a.2 b.2 ((score - a.1) / (b.1 - a.1))) := by
      simpa using hcl
    rw [hcl']

/-- C8: with strictly ascending anchors in `[0,1]` carrying canonical
`#RRGGBB` colors, `score_to_color` at an anchor's exact value returns that
anchor's color string unchanged; strictly between two adjacent anchors it
interpolates each channel independently as `a + (b − a)·t` truncated to an
integer (which stays inside `[0, 255]`, so the claimed clamp is the
identity); and at `t = 1/2` a channel is the truncated arithmetic mean. -/
theorem score_to_color_anchor_exact_and_lerp (cfg : Config)
    (hpw : cfg.severityColorAnchors.Pairwise (fun x y : ℚ × Str => x.1 < y.1))
    (hrange : ∀ e ∈ cfg.severityColorAnchors, 0 ≤ e.1 ∧ e.1 ≤ 1)
    (hcanon : ∀ e ∈ cfg.severityColorAnchors, canonicalHex e.2 = true) :
    (∀ e ∈ cfg.severityColorAnchors, score_to_color cfg e.1 = e.2) ∧
      (∀ pre a b post score, cfg.severityColorAnchors = pre ++ a :: b :: post →
        a.1 < score → score < b.1 →
        score_to_color cfg score =
          '#' :: (format02X (lerpChannel (parseHexColor a.2).1 (parseHexColor b.2).1
              ((score - a.1) / (b.1 - a.1))) ++
            format02X (lerpChannel (parseHexColor a.2).2.1 (parseHexColor b.2).2.1
              ((score - a.1) / (b.1 - a.1))) ++
            format02X (lerpChannel (parseHexColor a.2).2.2 (parseHexColor b.2).2.2
              ((score - a.1) / (b.1 - a.1)))) ∧
          (0 ≤ lerpChannel (parseHexColor a.2).1 (parseHexColor b.2).1
              ((score - a.1) / (b.1 - a.1)) ∧
            lerpChannel (parseHexColor a.2).1 (parseHexColor b.2).1
              ((score - a.1) / (b.1 - a.1)) ≤ 255) ∧
          (0 ≤ lerpChannel (parseHexColor a.2).2.1 (parseHexColor b.2).2.1
              ((score - a.1) / (b.1 - a.1)) ∧
            lerpChannel (parseHexColor a.2).2.1 (parseHexColor b.2).2.1
              ((score - a.1) / (b.1 - a.1)) ≤ 255) ∧
          (0 ≤ lerpChannel (parseHexColor a.2).2.2 (parseHexColor b.2).2.2
              ((score - a.1) / (b.1 - a.1)) ∧
            lerpChannel (parseHexColor a.2).2.2 (parseHexColor b.2).2.2
              ((score - a.1) / (b.1 - a.1)) ≤ 255)) ∧
      (∀ x y : ℕ, lerpChannel x y (1 / 2) = intTrunc (((x : ℚ) + (y : ℚ)) / 2)) := by
  refine ⟨?_, ?_, ?_⟩
  · -- exact anchor values return the anchor color unchanged
    intro e hmem
    have hs : pymax 0 (pymin 1 e.1) = e.1 := by
      rw [pymax_eq, pymin_eq, min_eq_right (hrange e hmem).2, max_eq_right (hrange e hmem).1]
    obtain ⟨s, t, hst⟩ := List.append_of_mem hmem
    cases s with
    | nil =>
      unfold score_to_color
      rw [hst]
      show (if pymax 0 (pymin 1 e.1) ≤ e.1 then e.2
        else if pymax 0 (pymin 1 e.1) ≥ (t.getLastD e).1 then (t.getLastD e).2
        else match colorLoop (pymax 0 (pymin 1 e.1)) (e :: t) with
          | some c => c
          | none => (t.getLastD e).2) = e.2
      rw [hs, if_pos (le_refl e.1)]
    | cons f s' =>
      have hpw' : ((f :: s') ++ e :: t).Pairwise (fun x y : ℚ × Str => x.1 < y.1) :=
        hst ▸ hpw
      cases t with
      | nil =>
        have hfe : f.1 < e.1 :=
          (List.pairwise_cons.mp hpw').1 e (by simp)
        unfold score_to_color
        rw [hst]
        show (if pymax 0 (pymin 1 e.1) ≤ f.1 then f.2
          else if pymax 0 (pymin 1 e.1) ≥ ((s' ++ [e]).getLastD f).1 then
            ((s' ++ [e]).getLastD f).2
          else match colorLoop (pymax 0 (pymin 1 e.1)) (f :: (s' ++ [e])) with
            | some c => c
            | none => ((s' ++ [e]).getLastD f).2) = e.2
        rw [hs, List.getLastD_concat, if_neg (not_le.mpr hfe), if_pos (le_refl e.1)]
      | cons u t' =>
        rcases List.eq_nil_or_concat (f :: s') with hnil | ⟨s₁, aP, hsc⟩
        · exact absurd hnil (by simp)
        · rw [List.concat_eq_append] at hsc
          have hanch' : cfg.severityColorAnchors = s₁ ++ aP :: e :: u :: t' := by
            rw [hst, hsc]
            simp
          have hpw'' : (s₁ ++ aP :: e :: u :: t').Pairwise
              (fun x y : ℚ × Str => x.1 < y.1) := hanch' ▸ hpw
          have haPe : aP.1 < e.1 := by
            have h2 := (List.pairwise_append.mp hpw'').2.1
            exact (List.pairwise_cons.mp h2).1 e (by simp)
          have heval := score_to_color_eval_bracket cfg s₁ (u :: t') aP e e.1 hanch'
            hpw'' (hrange e hmem).1 (hrange e hmem).2 haPe (le_refl e.1)
            (Or.inr (by simp))
          rw [heval, div_self (ne_of_gt (sub_pos.mpr haPe)),
            lerp_hex_one aP.2 e.2 (hcanon e hmem)]
  · -- strict interior: full interpolation formula with byte-range channels
    intro pre a b post score hanch hlt1 hlt2
    have hamem : a ∈ cfg.severityColorAnchors := by
      rw [hanch]
      simp
    have hbmem : b ∈ cfg.severityColorAnchors := by
      rw [hanch]
      simp
    have hs0 : 0 ≤ score := le_of_lt (lt_of_le_of_lt (hrange a hamem).1 hlt1)
    have hs1 : score ≤ 1 := le_of_lt (lt_of_lt_of_le hlt2 (hrange b hbmem).2)
    have hpw' : (pre ++ a :: b :: post).Pairwise (fun x y : ℚ × Str => x.1 < y.1) :=
      hanch ▸ hpw
    have heval := score_to_color_eval_bracket cfg pre post a b score hanch hpw'
      hs0 hs1 hlt1 (le_of_lt hlt2) (Or.inl hlt2)
    have hab : a.1 < b.1 := lt_trans hlt1 hlt2
    have ht0 : 0 ≤ (score - a.1) / (b.1 - a.1) :=
      div_nonneg (by linarith) (by linarith)
    have ht1 : (score - a.1) / (b.1 - a.1) ≤ 1 := by
      rw [div_le_one (by linarith)]
      linarith
    have hpa := parseHexColor_le_255 a.2 (hcanon a hamem)
    have hpb := parseHexColor_le_255 b.2 (hcanon b hbmem)
    exact ⟨heval,
      lerpChannel_mem_byte_range _ _ _ hpa.1 hpb.1 ht0 ht1,
      lerpChannel_mem_byte_range _ _ _ hpa.2.1 hpb.2.1 ht0 ht1,
      lerpChannel_mem_byte_range _ _ _ hpa.2.2 hpb.2.2 ht0 ht1⟩
  · -- the midpoint channel is the truncated arithmetic mean
    intro x y
    unfold lerpChannel
    exact congrArg intTrunc (by ring)

/-- C8 witness: in the concrete configuration the middle anchor value 0.5
returns the middle anchor's color string unchanged. -/
theorem score_to_color_anchor_exact_witness :
    score_to_color cfgW (1 / 2) = ['#','F','9','A','8','2','5'] :=
  (score_to_color_anchor_exact_and_lerp cfgW (by with_unfolding_all decide)
      (by with_unfolding_all decide) (by with_unfolding_all decide)).1
    (1 / 2, ['#','F','9','A','8','2','5']) (by with_unfolding_all decide)

end GoResearch
